import Mathlib

/-!
# Verification of the sbpy Haser coma model against its specification

The repository ships the test-suite for its gas-coma module and an
observation-planning stub, but the Haser engine itself (the `Haser` class
and the aperture classes referenced by the tests) is not among the source
files.  Following the specification, the engine is modelled here over the
real numbers: pointwise closed-form formulas become real functions, the
quadrature entry points become the mathematical integrals they are
specified to approximate, and the fallible dispatch of total_number
becomes an Except-valued function.  Division by zero follows the IEEE
limiting convention used throughout the spec (a zero lengthscale makes the
exponential factor vanish for positive radii), made explicit in expTerm.
-/

open MeasureTheory Real Set Filter

open scoped Real Topology ENNReal

namespace Sbpy

/-- Modelled from the spec: the exponential survival factor exp(-r/l) of the
Haser formulas (missing source file for the gas module).  A zero lengthscale
is the IEEE limiting case exp(-infinity) = 0 used by the floating-point code
for positive radii, written as an explicit branch. -/
noncomputable def expTerm (r l : ℝ) : ℝ :=
  if l = 0 then 0 else Real.exp (-(r / l))

/-- Modelled from the spec: the immutable Haser model state, a production
rate Q (inverse time), an expansion velocity v (length over time), a parent
lengthscale, and an optional daughter lengthscale (absent for the
single-generation model).  All magnitudes are unit-stripped reals. -/
structure Haser where
  Q : ℝ
  v : ℝ
  parent : ℝ
  daughter : Option ℝ

/-- Modelled from the spec: volume_density(r).  For the single-generation
model (no daughter) this is Q/(4 pi r^2 v) exp(-r/lp); for the
two-generation model it is the standard two-exponential Haser expression,
with the removable-singularity limiting form when the two lengthscales are
equal. -/
noncomputable def Haser.volume_density (m : Haser) (r : ℝ) : ℝ :=
  m.Q / (4 * π * r ^ 2 * m.v) *
    match m.daughter with
    | none => expTerm r m.parent
    | some ld =>
      if m.parent = ld then r / m.parent * expTerm r m.parent
      else ld / (m.parent - ld) * (expTerm r m.parent - expTerm r ld)

/-- Modelled from the spec: column_density(rho), the line-of-sight integral
of the volume density along a sightline at projected distance rho from the
nucleus. -/
noncomputable def Haser.column_density (m : Haser) (rho : ℝ) : ℝ :=
  ∫ z : ℝ, m.volume_density (Real.sqrt (rho ^ 2 + z ^ 2))

/-- Modelled from the spec: the closed tagged-variant aperture hierarchy
(circular, rectangular, annular, Gaussian-weighted). -/
inductive Aperture where
  | Circular (radius : ℝ)
  | Rectangular (width height : ℝ)
  | Annular (inner outer : ℝ)
  | Gaussian (sigma : ℝ)

/-- Modelled from the spec: the argument accepted by total_number, either a
bare linear length or an aperture. -/
inductive ApertureArg where
  | len (rho : ℝ)
  | ap (a : Aperture)

/-- Modelled from the spec: the Gaussian aperture weighting function
exp(-(r/sigma)^2 ln 2), a dimensionless weight. -/
noncomputable def gaussianWeight (sigma r : ℝ) : ℝ :=
  Real.exp (-(r / sigma) ^ 2 * Real.log 2)

/-- Modelled from the spec: the error taxonomy surfaced by total_number;
only the malformed-geometry error is reachable in the modelled dispatch. -/
inductive HaserError where
  | InvalidApertureError

/-- Modelled from the spec: the circular-aperture molecule count, the column
density integrated over the projected disk of radius rho, reduced to its
one-dimensional radial form 2 pi times the integral of s times the column
density at s. -/
noncomputable def circularTotal (m : Haser) (rho : ℝ) : ℝ :=
  2 * π * ∫ s in (0:ℝ)..rho, s * m.column_density s

/-- Modelled from the spec: the rectangular-aperture molecule count, the
column density integrated over one quadrant of the rectangle and multiplied
by four (the quadrant-symmetry strategy of the spec). -/
noncomputable def rectangularTotal (m : Haser) (w h : ℝ) : ℝ :=
  4 * ∫ x in (0:ℝ)..(w / 2), ∫ y in (0:ℝ)..(h / 2),
    m.column_density (Real.sqrt (x ^ 2 + y ^ 2))

/-- Modelled from the spec: the Gaussian-aperture molecule count, the
radially weighted integral of the column density against the Gaussian
response over all radii. -/
noncomputable def gaussianTotal (m : Haser) (sigma : ℝ) : ℝ :=
  2 * π * ∫ s in Set.Ioi (0:ℝ), s * m.column_density s * gaussianWeight sigma s

/-- Modelled from the spec: the aperture dispatch of total_number.  Circular
apertures use the closed-form radial reduction, annular apertures reuse the
circular form and fail fast on inner radius at least the outer radius,
rectangular apertures use the quadrant strategy, Gaussian apertures the
weighted radial integral. -/
noncomputable def Haser.total_number_ap (m : Haser) (a : Aperture) :
    Except HaserError ℝ :=
  match a with
  | .Circular rho => .ok (circularTotal m rho)
  | .Rectangular w h => .ok (rectangularTotal m w h)
  | .Annular inner outer =>
      if outer ≤ inner then .error .InvalidApertureError
      else .ok (circularTotal m outer - circularTotal m inner)
  | .Gaussian sigma => .ok (gaussianTotal m sigma)

/-- Modelled from the spec: total_number.  A bare linear length is shorthand
for a circular aperture of that radius; otherwise the aperture dispatch is
used.  The quadrature tolerance parameters of the source signature do not
affect the exact mathematical value and are omitted. -/
noncomputable def Haser.total_number (m : Haser) (a : ApertureArg) :
    Except HaserError ℝ :=
  match a with
  | .len rho => m.total_number_ap (.Circular rho)
  | .ap a => m.total_number_ap a

/-- Modelled from the spec: the internal diagnostic entry point (named
_integrate_column_density in the source tests) exposing the raw
column-density integral over a circular aperture, here the genuine
two-dimensional integral of the column-density field over the disk. -/
noncomputable def Haser.integrate_column_density (m : Haser) (a : Aperture) :
    Option ℝ :=
  match a with
  | .Circular rho =>
      some (∫ p in {q : ℝ × ℝ | q.1 ^ 2 + q.2 ^ 2 < rho ^ 2},
        m.column_density (Real.sqrt (p.1 ^ 2 + p.2 ^ 2)))
  | _ => none

lemma expTerm_nonneg (r l : ℝ) : 0 ≤ expTerm r l := by
  unfold expTerm
  split_ifs
  · exact le_refl 0
  · exact (Real.exp_pos _).le

lemma expTerm_le_one {r l : ℝ} (hr : 0 ≤ r) (hl : 0 ≤ l) : expTerm r l ≤ 1 := by
  unfold expTerm
  split_ifs with h
  · exact zero_le_one
  · exact Real.exp_le_one_iff.mpr (neg_nonpos.mpr (div_nonneg hr (hl.lt_of_ne (Ne.symm h)).le))

lemma expTerm_mono {r l₁ l₂ : ℝ} (hr : 0 ≤ r) (hl₁ : 0 ≤ l₁) (h : l₁ ≤ l₂) :
    expTerm r l₁ ≤ expTerm r l₂ := by
  rcases eq_or_lt_of_le hl₁ with h0 | h0
  · rw [← h0]
    simpa [expTerm] using expTerm_nonneg r l₂
  · have h2 : (0:ℝ) < l₂ := lt_of_lt_of_le h0 h
    rw [expTerm, expTerm, if_neg (ne_of_gt h0), if_neg (ne_of_gt h2)]
    apply Real.exp_le_exp.mpr
    have : r / l₂ ≤ r / l₁ := by gcongr
    linarith

lemma volume_density_nonneg (m : Haser) (hQ : 0 ≤ m.Q) (hv : 0 ≤ m.v)
    (hp : 0 ≤ m.parent) (hd : ∀ ld ∈ m.daughter, 0 ≤ ld) {r : ℝ} (hr : 0 ≤ r) :
    0 ≤ m.volume_density r := by
  rcases m with ⟨Q, v, lp, d⟩
  simp only at hQ hv hp
  have hpre : 0 ≤ Q / (4 * π * r ^ 2 * v) :=
    div_nonneg hQ (by positivity)
  cases d with
  | none =>
      simp only [Haser.volume_density]
      exact mul_nonneg hpre (expTerm_nonneg r lp)
  | some ld =>
      have hld : 0 ≤ ld := hd ld rfl
      simp only [Haser.volume_density]
      apply mul_nonneg hpre
      by_cases h : lp = ld
      · rw [if_pos h]
        exact mul_nonneg (div_nonneg hr hp) (expTerm_nonneg r lp)
      · rw [if_neg h]
        rcases lt_or_gt_of_ne h with hlt | hgt
        · apply mul_nonneg_iff.mpr
          refine Or.inr ⟨div_nonpos_of_nonneg_of_nonpos hld (by linarith), ?_⟩
          exact sub_nonpos.mpr (expTerm_mono hr hp hlt.le)
        · exact mul_nonneg (div_nonneg hld (by linarith))
            (sub_nonneg.mpr (expTerm_mono hr hld hgt.le))

lemma measurable_expTerm (l : ℝ) : Measurable fun r => expTerm r l := by
  unfold expTerm
  split_ifs with h
  · exact measurable_const
  · exact (Real.continuous_exp.comp ((continuous_id.div_const l).neg)).measurable

lemma measurable_volume_density (m : Haser) : Measurable m.volume_density := by
  rcases m with ⟨Q, v, lp, d⟩
  have hpre : Measurable fun r : ℝ => Q / (4 * π * r ^ 2 * v) := by
    apply Measurable.div measurable_const
    exact ((continuous_const.mul (continuous_pow 2)).mul continuous_const).measurable
  cases d with
  | none =>
      have hrw : (Haser.mk Q v lp none).volume_density
          = fun r : ℝ => Q / (4 * π * r ^ 2 * v) * expTerm r lp := rfl
      rw [hrw]
      exact hpre.mul (measurable_expTerm lp)
  | some ld =>
      have hrw : (Haser.mk Q v lp (some ld)).volume_density
          = fun r : ℝ => Q / (4 * π * r ^ 2 * v) *
              (if lp = ld then r / lp * expTerm r lp
               else ld / (lp - ld) * (expTerm r lp - expTerm r ld)) := rfl
      rw [hrw]
      by_cases h : lp = ld
      · simp only [if_pos h]
        exact hpre.mul ((measurable_id.div_const lp).mul (measurable_expTerm lp))
      · simp only [if_neg h]
        exact hpre.mul (((measurable_expTerm lp).sub (measurable_expTerm ld)).const_mul _)

lemma measurable_radial (m : Haser) :
    Measurable fun p : ℝ × ℝ => m.volume_density (Real.sqrt (p.1 ^ 2 + p.2 ^ 2)) := by
  apply (measurable_volume_density m).comp
  exact (continuous_sqrt.comp ((continuous_pow 2).comp continuous_fst |>.add
    ((continuous_pow 2).comp continuous_snd))).measurable

lemma stronglyMeasurable_column_density (m : Haser) :
    StronglyMeasurable m.column_density :=
  (measurable_radial m).stronglyMeasurable.integral_prod_right'

lemma column_density_nonneg (m : Haser) (hQ : 0 ≤ m.Q) (hv : 0 ≤ m.v)
    (hp : 0 ≤ m.parent) (hd : ∀ ld ∈ m.daughter, 0 ≤ ld) (rho : ℝ) :
    0 ≤ m.column_density rho := by
  apply integral_nonneg
  intro z
  exact volume_density_nonneg m hQ hv hp hd (Real.sqrt_nonneg _)

lemma circularTotal_nonneg (m : Haser) (hQ : 0 ≤ m.Q) (hv : 0 ≤ m.v)
    (hp : 0 ≤ m.parent) (hd : ∀ ld ∈ m.daughter, 0 ≤ ld) {rho : ℝ}
    (hrho : 0 ≤ rho) : 0 ≤ circularTotal m rho := by
  unfold circularTotal
  apply mul_nonneg (by positivity)
  apply intervalIntegral.integral_nonneg hrho
  intro u hu
  exact mul_nonneg hu.1 (column_density_nonneg m hQ hv hp hd u)

/-- C1: for every valid parameter triple and positive radius, the
single-generation volume density is Q/(4 pi r^2 v) exp(-r/lp); a zero
parent lengthscale follows the limiting value zero of the singular
exponential. -/
theorem volume_density_single_generation (Q v lp r : ℝ)
    (hQ : 0 ≤ Q) (hv : 0 < v) (hlp : 0 ≤ lp) (hr : 0 < r) :
    (0 < lp →
      (Haser.mk Q v lp none).volume_density r
        = Q / (4 * π * r ^ 2 * v) * Real.exp (-(r / lp))) ∧
    (lp = 0 → (Haser.mk Q v lp none).volume_density r = 0) := by
  constructor
  · intro hpos
    simp [Haser.volume_density, expTerm, ne_of_gt hpos]
  · intro h0
    simp [Haser.volume_density, expTerm, h0]

/-- Witness for C1 at Q = 1, v = 1, lp = 2, r = 3. -/
theorem volume_density_single_generation_witness :
    (Haser.mk 1 1 2 none).volume_density 3
      = 1 / (4 * π * 3 ^ 2 * 1) * Real.exp (-(3 / 2)) :=
  (volume_density_single_generation 1 1 2 3 (by norm_num) (by norm_num)
    (by norm_num) (by norm_num)).1 (by norm_num)

/-- C6: a bare linear length passed to total_number is shorthand for a
circular aperture of that radius. -/
theorem total_number_len_eq_circular (m : Haser) (rho : ℝ) :
    m.total_number (.len rho) = m.total_number (.ap (.Circular rho)) := rfl

/-- C7: an annular aperture with inner radius at least the outer radius
fails fast with the invalid-aperture error, and a valid annulus yields the
difference of the circular totals of its two bounding circles. -/
theorem total_number_annular (m : Haser) (inner outer : ℝ) :
    (outer ≤ inner →
      m.total_number (.ap (.Annular inner outer))
        = .error .InvalidApertureError) ∧
    (inner < outer → ∀ No Ni : ℝ,
      m.total_number (.ap (.Circular outer)) = .ok No →
      m.total_number (.ap (.Circular inner)) = .ok Ni →
      m.total_number (.ap (.Annular inner outer)) = .ok (No - Ni)) := by
  constructor
  · intro h
    simp [Haser.total_number, Haser.total_number_ap, h]
  · intro h No Ni hNo hNi
    have ho : No = circularTotal m outer := by
      simpa [Haser.total_number, Haser.total_number_ap] using hNo.symm
    have hi : Ni = circularTotal m inner := by
      simpa [Haser.total_number, Haser.total_number_ap] using hNi.symm
    simp [Haser.total_number, Haser.total_number_ap, not_le.mpr h, ho, hi]

/-- Witness for C7: the annulus with inner radius 5 and outer radius 3 is
rejected, and the annulus with radii 1 and 2 yields the difference of the
two circular totals. -/
theorem total_number_annular_witness :
    (Haser.mk 1 1 1 none).total_number (.ap (.Annular 5 3))
      = .error .InvalidApertureError ∧
    (Haser.mk 1 1 1 none).total_number (.ap (.Annular 1 2))
      = .ok (circularTotal (Haser.mk 1 1 1 none) 2
          - circularTotal (Haser.mk 1 1 1 none) 1) :=
  ⟨(total_number_annular (Haser.mk 1 1 1 none) 5 3).1 (by norm_num),
   (total_number_annular (Haser.mk 1 1 1 none) 1 2).2 (by norm_num) _ _
     rfl rfl⟩

/-- C10: a model with a zero parent lengthscale and a positive daughter
lengthscale is accepted, its volume density at a positive radius is the
finite nonnegative limiting value Q/(4 pi r^2 v) exp(-r/ld) (the singular
exponential of the zero-parent case contributes its limit zero), and
total_number over a bare circular radius returns a nonnegative value. -/
theorem zero_parent_edge_case (Q v ld r rho : ℝ) (hQ : 0 ≤ Q) (hv : 0 < v)
    (hld : 0 < ld) (hr : 0 < r) (hrho : 0 ≤ rho) :
    (Haser.mk Q v 0 (some ld)).volume_density r
        = Q / (4 * π * r ^ 2 * v) * Real.exp (-(r / ld)) ∧
    0 ≤ (Haser.mk Q v 0 (some ld)).volume_density r ∧
    ∃ N : ℝ, (Haser.mk Q v 0 (some ld)).total_number (.len rho) = .ok N ∧
      0 ≤ N := by
  have h0 : (0:ℝ) ≠ ld := (ne_of_lt hld)
  have hval : (Haser.mk Q v 0 (some ld)).volume_density r
      = Q / (4 * π * r ^ 2 * v) * Real.exp (-(r / ld)) := by
    show Q / (4 * π * r ^ 2 * v) *
        (if (0:ℝ) = ld then r / 0 * expTerm r 0
         else ld / (0 - ld) * (expTerm r 0 - expTerm r ld)) = _
    rw [if_neg h0]
    rw [expTerm, if_pos rfl, expTerm, if_neg (ne_of_gt hld)]
    congr 1
    field_simp
  refine ⟨hval, ?_, ?_⟩
  · rw [hval]
    positivity
  · refine ⟨circularTotal (Haser.mk Q v 0 (some ld)) rho, rfl, ?_⟩
    apply circularTotal_nonneg _ hQ hv.le le_rfl _ hrho
    intro l hl
    have hll : ld = l := by simpa using hl
    rw [← hll]
    exact hld.le

/-- Witness for C10 at Q = 1, v = 1, ld = 2, r = 3, rho = 4. -/
theorem zero_parent_edge_case_witness :
    (Haser.mk 1 1 0 (some 2)).volume_density 3
        = 1 / (4 * π * 3 ^ 2 * 1) * Real.exp (-(3 / 2)) ∧
    0 ≤ (Haser.mk 1 1 0 (some 2)).volume_density 3 ∧
    ∃ N : ℝ, (Haser.mk 1 1 0 (some 2)).total_number (.len 4) = .ok N ∧
      0 ≤ N :=
  zero_parent_edge_case 1 1 2 3 4 (by norm_num) (by norm_num) (by norm_num)
    (by norm_num) (by norm_num)

lemma exp_newburn_bounds :
    0.44139 ≤ Real.exp (-(11449 / 14000 : ℝ)) ∧
      Real.exp (-(11449 / 14000 : ℝ)) ≤ 0.44141 := by
  have habs : |(-(11449 / 14000 : ℝ))| ≤ 1 := by
    rw [abs_neg, abs_of_pos] <;> norm_num
  have hb := Real.exp_bound habs (by norm_num : 0 < 8)
  have hsum : (∑ m ∈ Finset.range 8, (-(11449 / 14000 : ℝ)) ^ m / m.factorial)
      = 234510607394953119871469131945351 / 531284060160000000000000000000000 := by
    simp [Finset.sum_range_succ, Nat.factorial]
    norm_num
  have herr : |(-(11449 / 14000 : ℝ))| ^ 8 * ((8:ℕ).succ / ((8:ℕ).factorial * 8))
      ≤ 0.0000056 := by
    rw [abs_neg, abs_of_pos (by norm_num : (0:ℝ) < 11449 / 14000)]
    norm_num [Nat.factorial]
  rw [hsum] at hb
  have h2 := abs_le.mp (hb.trans herr)
  constructor <;> [linarith [h2.1]; linarith [h2.2]]

lemma volume_density_newburn_bounds :
    0.2028 ≤ (Haser.mk (4.1e23) (7.1e4) (1.4e9 / 1.07 ^ 2) none).volume_density 1e9 ∧
      (Haser.mk (4.1e23) (7.1e4) (1.4e9 / 1.07 ^ 2) none).volume_density 1e9 ≤ 0.2029 := by
  have hlp : (1.4e9 / 1.07 ^ 2 : ℝ) ≠ 0 := by norm_num
  have hval : (Haser.mk (4.1e23) (7.1e4) (1.4e9 / 1.07 ^ 2) none).volume_density 1e9
      = 4.1e23 / (4 * π * (1e9:ℝ) ^ 2 * 7.1e4) * Real.exp (-(11449 / 14000 : ℝ)) := by
    show (4.1e23 : ℝ) / (4 * π * (1e9:ℝ) ^ 2 * 7.1e4) * expTerm 1e9 (1.4e9 / 1.07 ^ 2) = _
    rw [expTerm, if_neg hlp]
    norm_num
  have hπ1 : (3.141592 : ℝ) < π := Real.pi_gt_d6
  have hπ2 : π < (3.141593 : ℝ) := Real.pi_lt_d6
  have hD : (0:ℝ) < 4 * π * (1e9:ℝ) ^ 2 * 7.1e4 := by positivity
  have hE := exp_newburn_bounds
  rw [hval, div_mul_eq_mul_div]
  constructor
  · rw [le_div_iff₀ hD]
    nlinarith [hE.1, hE.2]
  · rw [div_le_iff₀ hD]
    nlinarith [hE.1, hE.2]

/-- C5 counterexample: in cgs magnitudes (Q = 4.1e23 per second, v = 7.1e4
cm/s, lp = 1.4e9/1.07^2 cm, no daughter), the volume density at r = 1e9 cm
is more than 0.25 away from the claimed 0.5 per cubic centimetre. -/
theorem volume_density_newburn_not_half :
    ¬ |(Haser.mk (4.1e23) (7.1e4) (1.4e9 / 1.07 ^ 2) none).volume_density 1e9
        - 0.5| ≤ 0.25 := by
  have h := volume_density_newburn_bounds
  intro hcl
  have := abs_le.mp hcl
  linarith [h.2]

/-- C5 amended: for Q = 4.1e23 per second, v = 0.71 km/s, lp = 1.4e4/1.07^2
km and no daughter lengthscale, the single-generation volume density at 1e4
km is approximately 0.2028 per cubic centimetre (all magnitudes in cgs
units), not 0.5. -/
theorem volume_density_newburn_value :
    |(Haser.mk (4.1e23) (7.1e4) (1.4e9 / 1.07 ^ 2) none).volume_density 1e9
        - 0.2028| ≤ 0.0001 := by
  have h := volume_density_newburn_bounds
  rw [abs_le]
  constructor <;> linarith [h.1, h.2]


lemma inv_sq_add_eq {s : ℝ} (hs : s ≠ 0) (z : ℝ) :
    (s ^ 2 + z ^ 2)⁻¹ = (s ^ 2)⁻¹ * (1 + (z / s) ^ 2)⁻¹ := by
  rw [← mul_inv]
  congr 1
  field_simp

lemma inv_sq_add_integrable {s : ℝ} (hs : s ≠ 0) :
    Integrable fun z : ℝ => (s ^ 2 + z ^ 2)⁻¹ := by
  have hfun : (fun z : ℝ => (s ^ 2 + z ^ 2)⁻¹)
      = fun z => (s ^ 2)⁻¹ * (1 + (z / s) ^ 2)⁻¹ :=
    funext (inv_sq_add_eq hs)
  rw [hfun]
  exact ((integrable_comp_div_iff (fun u : ℝ => ((1:ℝ) + u ^ 2)⁻¹) hs).mpr
    integrable_inv_one_add_sq).const_mul _

lemma integral_inv_sq_add {s : ℝ} (hs : 0 < s) :
    ∫ z : ℝ, (s ^ 2 + z ^ 2)⁻¹ = π / s := by
  have hfun : (fun z : ℝ => (s ^ 2 + z ^ 2)⁻¹)
      = fun z => (s ^ 2)⁻¹ * (1 + (z / s) ^ 2)⁻¹ :=
    funext (inv_sq_add_eq hs.ne')
  rw [hfun, integral_mul_left,
    Measure.integral_comp_div (fun u : ℝ => ((1:ℝ) + u ^ 2)⁻¹) s,
    integral_univ_inv_one_add_sq, abs_of_pos hs, smul_eq_mul]
  field_simp
  ring

lemma volume_density_single_eq (Q v L : ℝ) (r : ℝ) :
    (Haser.mk Q v L none).volume_density r
      = Q / (4 * π * v) * (r ^ 2)⁻¹ * expTerm r L := by
  show Q / (4 * π * r ^ 2 * v) * expTerm r L = _
  rw [show 4 * π * r ^ 2 * v = 4 * π * v * r ^ 2 by ring, ← div_div,
    div_eq_mul_inv (Q / (4 * π * v))]

lemma radial_integrand_le (Q v L : ℝ) (hQ : 0 ≤ Q) (hv : 0 ≤ v) (hL : 0 ≤ L)
    (s z : ℝ) :
    (Haser.mk Q v L none).volume_density (Real.sqrt (s ^ 2 + z ^ 2))
      ≤ Q / (4 * π * v) * (s ^ 2 + z ^ 2)⁻¹ := by
  rw [volume_density_single_eq, Real.sq_sqrt (by positivity)]
  calc Q / (4 * π * v) * (s ^ 2 + z ^ 2)⁻¹ * expTerm (Real.sqrt (s ^ 2 + z ^ 2)) L
      ≤ Q / (4 * π * v) * (s ^ 2 + z ^ 2)⁻¹ * 1 := by
        apply mul_le_mul_of_nonneg_left
          (expTerm_le_one (Real.sqrt_nonneg _) hL)
          (by positivity)
    _ = Q / (4 * π * v) * (s ^ 2 + z ^ 2)⁻¹ := mul_one _

lemma integrable_radial_single (Q v L : ℝ) (hQ : 0 ≤ Q) (hv : 0 ≤ v)
    (hL : 0 ≤ L) {s : ℝ} (hs : s ≠ 0) :
    Integrable fun z : ℝ =>
      (Haser.mk Q v L none).volume_density (Real.sqrt (s ^ 2 + z ^ 2)) := by
  apply Integrable.mono' ((inv_sq_add_integrable hs).const_mul (Q / (4 * π * v)))
  · exact ((measurable_volume_density _).comp
      (continuous_sqrt.comp (continuous_const.add (continuous_pow 2))).measurable).aestronglyMeasurable
  · apply ae_of_all
    intro z
    rw [Real.norm_eq_abs, abs_of_nonneg]
    · exact radial_integrand_le Q v L hQ hv hL s z
    · exact volume_density_nonneg _ hQ hv hL (by simp) (Real.sqrt_nonneg _)

lemma column_density_single_le (Q v L : ℝ) (hQ : 0 ≤ Q) (hv : 0 ≤ v)
    (hL : 0 ≤ L) {s : ℝ} (hs : 0 < s) :
    (Haser.mk Q v L none).column_density s ≤ Q / (4 * v * s) := by
  have h1 : (Haser.mk Q v L none).column_density s
      ≤ ∫ z : ℝ, Q / (4 * π * v) * (s ^ 2 + z ^ 2)⁻¹ := by
    apply integral_mono (integrable_radial_single Q v L hQ hv hL hs.ne')
      ((inv_sq_add_integrable hs.ne').const_mul _)
    intro z
    exact radial_integrand_le Q v L hQ hv hL s z
  have h2 : ∫ z : ℝ, Q / (4 * π * v) * (s ^ 2 + z ^ 2)⁻¹
      = Q / (4 * π * v) * (π / s) := by
    rw [integral_mul_left, integral_inv_sq_add hs]
  have h3 : Q / (4 * π * v) * (π / s) = Q / (4 * v * s) := by
    rw [div_mul_div_comm,
      show 4 * π * v * s = 4 * v * s * π by ring,
      mul_div_mul_right _ _ Real.pi_ne_zero]
  calc (Haser.mk Q v L none).column_density s
      ≤ ∫ z : ℝ, Q / (4 * π * v) * (s ^ 2 + z ^ 2)⁻¹ := h1
    _ = Q / (4 * v * s) := by rw [h2, h3]

lemma sqrt_sq_add_le {s z Z : ℝ} (hs : 0 < s) (hZ : 0 < Z) (h1 : -Z ≤ z)
    (h2 : z ≤ Z) : Real.sqrt (s ^ 2 + z ^ 2) ≤ s + Z := by
  rw [show s + Z = Real.sqrt ((s + Z) ^ 2) from
    (Real.sqrt_sq (by linarith)).symm]
  apply Real.sqrt_le_sqrt
  nlinarith

lemma interval_integral_inv_sq_add {s Z : ℝ} (hs : 0 < s) :
    ∫ z in (-Z)..Z, (s ^ 2 + z ^ 2)⁻¹ = 2 / s * Real.arctan (Z / s) := by
  have hcg : ∫ z in (-Z)..Z, (s ^ 2 + z ^ 2)⁻¹
      = ∫ z in (-Z)..Z, (s ^ 2)⁻¹ * (1 + (z / s) ^ 2)⁻¹ :=
    intervalIntegral.integral_congr fun z _ => inv_sq_add_eq hs.ne' z
  rw [hcg, intervalIntegral.integral_const_mul,
    intervalIntegral.integral_comp_div
      (f := fun u : ℝ => ((1:ℝ) + u ^ 2)⁻¹) hs.ne',
    integral_inv_one_add_sq, neg_div, Real.arctan_neg, smul_eq_mul]
  field_simp
  ring

lemma column_density_single_lower (Q v L : ℝ) (hQ : 0 ≤ Q) (hv : 0 ≤ v)
    (hL : 0 < L) {s Z : ℝ} (hs : 0 < s) (hZ : 0 < Z) :
    Q / (4 * π * v) * Real.exp (-((s + Z) / L)) * (2 / s * Real.arctan (Z / s))
      ≤ (Haser.mk Q v L none).column_density s := by
  have hint_f := integrable_radial_single Q v L hQ hv hL.le hs.ne'
  have hint_g : Integrable fun z : ℝ =>
      Q / (4 * π * v) * Real.exp (-((s + Z) / L)) * (s ^ 2 + z ^ 2)⁻¹ :=
    (inv_sq_add_integrable hs.ne').const_mul _
  have hmono : ∫ z in (-Z)..Z,
      Q / (4 * π * v) * Real.exp (-((s + Z) / L)) * (s ^ 2 + z ^ 2)⁻¹
      ≤ ∫ z in (-Z)..Z,
        (Haser.mk Q v L none).volume_density (Real.sqrt (s ^ 2 + z ^ 2)) := by
    apply intervalIntegral.integral_mono_on (by linarith)
      hint_g.intervalIntegrable hint_f.intervalIntegrable
    intro z hz
    rw [volume_density_single_eq, Real.sq_sqrt (by positivity), expTerm,
      if_neg hL.ne']
    rw [show Q / (4 * π * v) * Real.exp (-((s + Z) / L)) * (s ^ 2 + z ^ 2)⁻¹
        = Q / (4 * π * v) * (s ^ 2 + z ^ 2)⁻¹ * Real.exp (-((s + Z) / L))
        by ring]
    apply mul_le_mul_of_nonneg_left _ (by positivity)
    apply Real.exp_le_exp.mpr
    have hsqrt := sqrt_sq_add_le hs hZ hz.1 hz.2
    have hdivs : Real.sqrt (s ^ 2 + z ^ 2) / L ≤ (s + Z) / L := by gcongr
    linarith
  have hval : ∫ z in (-Z)..Z,
      Q / (4 * π * v) * Real.exp (-((s + Z) / L)) * (s ^ 2 + z ^ 2)⁻¹
      = Q / (4 * π * v) * Real.exp (-((s + Z) / L))
          * (2 / s * Real.arctan (Z / s)) := by
    rw [intervalIntegral.integral_const_mul, interval_integral_inv_sq_add hs]
  have hup : ∫ z in (-Z)..Z,
      (Haser.mk Q v L none).volume_density (Real.sqrt (s ^ 2 + z ^ 2))
      ≤ (Haser.mk Q v L none).column_density s := by
    rw [intervalIntegral.integral_of_le (by linarith : -Z ≤ Z)]
    exact setIntegral_le_integral hint_f (ae_of_all _ fun z =>
      volume_density_nonneg _ hQ hv hL.le (by simp) (Real.sqrt_nonneg _))
  calc Q / (4 * π * v) * Real.exp (-((s + Z) / L))
        * (2 / s * Real.arctan (Z / s))
      = ∫ z in (-Z)..Z,
          Q / (4 * π * v) * Real.exp (-((s + Z) / L)) * (s ^ 2 + z ^ 2)⁻¹ :=
        hval.symm
    _ ≤ ∫ z in (-Z)..Z,
          (Haser.mk Q v L none).volume_density (Real.sqrt (s ^ 2 + z ^ 2)) :=
        hmono
    _ ≤ (Haser.mk Q v L none).column_density s := hup

theorem lintegral_comp_polarCoord_symm (g : ℝ × ℝ → ℝ≥0∞) :
    (∫⁻ p in polarCoord.target, ENNReal.ofReal p.1 * g (polarCoord.symm p))
      = ∫⁻ p, g p := by
  have A : ∀ p ∈ polarCoord.target, HasFDerivWithinAt polarCoord.symm
      (LinearMap.toContinuousLinearMap (Matrix.toLin (Basis.finTwoProd ℝ)
        (Basis.finTwoProd ℝ)
        !![Real.cos p.2, -p.1 * Real.sin p.2;
           Real.sin p.2, p.1 * Real.cos p.2])) polarCoord.target p :=
    fun p _ => (hasFDerivAt_polarCoord_symm p).hasFDerivWithinAt
  have B_det : ∀ p : ℝ × ℝ,
      (LinearMap.toContinuousLinearMap (Matrix.toLin (Basis.finTwoProd ℝ)
        (Basis.finTwoProd ℝ)
        !![Real.cos p.2, -p.1 * Real.sin p.2;
           Real.sin p.2, p.1 * Real.cos p.2])).det = p.1 := by
    intro p
    simp only [LinearMap.det_toContinuousLinearMap, LinearMap.det_toLin,
      Matrix.det_fin_two_of, neg_mul, sub_neg_eq_add]
    calc Real.cos p.2 * (p.1 * Real.cos p.2) + p.1 * Real.sin p.2 * Real.sin p.2
        = p.1 * (Real.sin p.2 ^ 2 + Real.cos p.2 ^ 2) := by ring
      _ = p.1 := by rw [Real.sin_sq_add_cos_sq, mul_one]
  symm
  calc ∫⁻ p, g p = ∫⁻ p in polarCoord.source, g p := by
        rw [← setLIntegral_univ]
        exact (setLIntegral_congr polarCoord_source_ae_eq_univ).symm
    _ = ∫⁻ p in polarCoord.symm '' polarCoord.target, g p := by
        rw [polarCoord.symm_image_target_eq_source]
    _ = ∫⁻ p in polarCoord.target,
          ENNReal.ofReal p.1 * g (polarCoord.symm p) := by
        rw [lintegral_image_eq_lintegral_abs_det_fderiv_mul volume
          polarCoord.open_target.measurableSet A polarCoord.symm.injOn g]
        apply setLIntegral_congr_fun polarCoord.open_target.measurableSet
        apply ae_of_all
        intro p hp
        rw [B_det p, abs_of_pos hp.1]

theorem lintegral_target_prod (F G : ℝ → ℝ≥0∞)
    (hF : AEMeasurable F (volume.restrict (Ioi 0)))
    (hG : AEMeasurable G (volume.restrict (Ioo (-π) π))) :
    ∫⁻ p in polarCoord.target, F p.1 * G p.2
      = (∫⁻ r in Ioi (0:ℝ), F r) * ∫⁻ θ in Ioo (-π) π, G θ := by
  have hrestr : (volume : Measure (ℝ × ℝ)).restrict (Ioi 0 ×ˢ Ioo (-π) π)
      = ((volume : Measure ℝ).restrict (Ioi 0)).prod
          ((volume : Measure ℝ).restrict (Ioo (-π) π)) := by
    rw [Measure.volume_eq_prod, Measure.prod_restrict]
  rw [polarCoord_target, hrestr, lintegral_prod_mul hF hG]

theorem lintegral_disk_radial (g : ℝ → ℝ≥0∞) (hg : Measurable g) {ρ : ℝ}
    (hρ : 0 ≤ ρ) :
    ∫⁻ p in {q : ℝ × ℝ | q.1 ^ 2 + q.2 ^ 2 < ρ ^ 2},
        g (Real.sqrt (p.1 ^ 2 + p.2 ^ 2))
      = ENNReal.ofReal (2 * π) * ∫⁻ r in Ioo 0 ρ, ENNReal.ofReal r * g r := by
  have hD : MeasurableSet {q : ℝ × ℝ | q.1 ^ 2 + q.2 ^ 2 < ρ ^ 2} := by
    apply measurableSet_lt _ measurable_const
    exact ((continuous_fst.pow 2).add (continuous_snd.pow 2)).measurable
  rw [← lintegral_indicator hD, ← lintegral_comp_polarCoord_symm]
  have key : ∀ p ∈ polarCoord.target,
      ENNReal.ofReal p.1 *
        ({q : ℝ × ℝ | q.1 ^ 2 + q.2 ^ 2 < ρ ^ 2}.indicator
          (fun q => g (Real.sqrt (q.1 ^ 2 + q.2 ^ 2))) (polarCoord.symm p))
      = (fun r => ENNReal.ofReal r * (Ioo 0 ρ).indicator g r) p.1 *
          (fun _ => (1:ℝ≥0∞)) p.2 := by
    rintro ⟨r, θ⟩ ⟨hr, hθ⟩
    simp only [mem_Ioi] at hr
    have hsq : (r * Real.cos θ) ^ 2 + (r * Real.sin θ) ^ 2 = r ^ 2 := by
      calc (r * Real.cos θ) ^ 2 + (r * Real.sin θ) ^ 2
          = r ^ 2 * (Real.sin θ ^ 2 + Real.cos θ ^ 2) := by ring
        _ = r ^ 2 := by rw [Real.sin_sq_add_cos_sq, mul_one]
    simp only [polarCoord_symm_apply, Set.indicator_apply, mem_setOf_eq, hsq,
      mem_Ioo, Real.sqrt_sq hr.le]
    have hiff : r ^ 2 < ρ ^ 2 ↔ r < ρ := by
      constructor
      · intro h
        nlinarith
      · intro h
        nlinarith
    rcases lt_or_le r ρ with h | h
    · rw [if_pos (hiff.mpr h), if_pos ⟨hr, h⟩, mul_one]
    · rw [if_neg (fun hc => (not_lt.mpr h) (hiff.mp hc)),
        if_neg (fun hc => (not_lt.mpr h) hc.2)]
      simp
  rw [setLIntegral_congr_fun polarCoord.open_target.measurableSet
    (ae_of_all _ key)]
  rw [lintegral_target_prod (fun r => ENNReal.ofReal r * (Ioo 0 ρ).indicator g r)
    (fun _ => (1:ℝ≥0∞))
    ((ENNReal.measurable_ofReal.mul (hg.indicator measurableSet_Ioo)).aemeasurable)
    aemeasurable_const]
  rw [lintegral_const, Measure.restrict_apply MeasurableSet.univ, univ_inter,
    Real.volume_Ioo]
  have hco : ∫⁻ r in Ioi (0:ℝ), ENNReal.ofReal r * (Ioo 0 ρ).indicator g r
      = ∫⁻ r in Ioo 0 ρ, ENNReal.ofReal r * g r := by
    have hpt : ∀ r : ℝ, ENNReal.ofReal r * (Ioo 0 ρ).indicator g r
        = (Ioo 0 ρ).indicator (fun u => ENNReal.ofReal u * g u) r := by
      intro r
      by_cases hmem : r ∈ Ioo 0 ρ
      · simp [Set.indicator_of_mem hmem]
      · simp [Set.indicator_of_not_mem hmem]
    rw [lintegral_congr hpt, lintegral_indicator measurableSet_Ioo,
      Measure.restrict_restrict measurableSet_Ioo,
      inter_eq_left.mpr Ioo_subset_Ioi_self]
  rw [hco, mul_comm]
  congr 1
  rw [show π - -π = 2 * π by ring, one_mul]

theorem integral_max_cos_zero : ∫ θ in (-π)..π, max (Real.cos θ) 0 = 2 := by
  have hcont : Continuous fun θ : ℝ => max (Real.cos θ) 0 :=
    Real.continuous_cos.max continuous_const
  have hpi := Real.pi_pos
  have h1 : ∫ θ in (-π)..(-(π/2)), max (Real.cos θ) 0 = 0 := by
    rw [intervalIntegral.integral_congr (g := fun _ => (0:ℝ)) ?_,
      intervalIntegral.integral_zero]
    intro θ hθ
    rw [uIcc_of_le (by linarith : -π ≤ -(π/2))] at hθ
    have hc : Real.cos θ ≤ 0 := by
      have h' : Real.cos (-θ) ≤ 0 :=
        Real.cos_nonpos_of_pi_div_two_le_of_le (by linarith [hθ.2])
          (by linarith [hθ.1])
      rwa [Real.cos_neg] at h'
    exact max_eq_right hc
  have h3 : ∫ θ in (π/2)..π, max (Real.cos θ) 0 = 0 := by
    rw [intervalIntegral.integral_congr (g := fun _ => (0:ℝ)) ?_,
      intervalIntegral.integral_zero]
    intro θ hθ
    rw [uIcc_of_le (by linarith : π/2 ≤ π)] at hθ
    have hc : Real.cos θ ≤ 0 :=
      Real.cos_nonpos_of_pi_div_two_le_of_le hθ.1 (by linarith [hθ.2])
    exact max_eq_right hc
  have h2 : ∫ θ in (-(π/2))..(π/2), max (Real.cos θ) 0 = 2 := by
    rw [intervalIntegral.integral_congr (g := fun θ => Real.cos θ) ?_]
    · rw [integral_cos, Real.sin_pi_div_two, Real.sin_neg, Real.sin_pi_div_two]
      norm_num
    · intro θ hθ
      rw [uIcc_of_le (by linarith : -(π/2) ≤ π/2)] at hθ
      exact max_eq_left (Real.cos_nonneg_of_mem_Icc hθ)
  have hadd1 : ∫ θ in (-(π/2))..π, max (Real.cos θ) 0 = 2 := by
    rw [← intervalIntegral.integral_add_adjacent_intervals
      (hcont.intervalIntegrable (-(π/2)) (π/2))
      (hcont.intervalIntegrable (π/2) π), h2, h3, add_zero]
  rw [← intervalIntegral.integral_add_adjacent_intervals
    (hcont.intervalIntegrable (-π) (-(π/2)))
    (hcont.intervalIntegrable (-(π/2)) π), h1, hadd1, zero_add]

theorem setLIntegral_max_cos :
    ∫⁻ θ in Ioo (-π) π, ENNReal.ofReal (max (Real.cos θ) 0)
      = ENNReal.ofReal 2 := by
  have hcont : Continuous fun θ : ℝ => max (Real.cos θ) 0 :=
    Real.continuous_cos.max continuous_const
  have hint : IntegrableOn (fun θ : ℝ => max (Real.cos θ) 0) (Ioo (-π) π) :=
    (hcont.integrableOn_Icc).mono_set Ioo_subset_Icc_self
  rw [← ofReal_integral_eq_lintegral_ofReal hint
    (ae_of_all _ fun θ => le_max_right _ _)]
  congr 1
  rw [← integral_Ioc_eq_integral_Ioo,
    ← intervalIntegral.integral_of_le (by linarith [Real.pi_pos] : -π ≤ π)]
  exact integral_max_cos_zero

theorem lintegral_halfplane_radial (g : ℝ → ℝ≥0∞) (hg : Measurable g) :
    ∫⁻ p : ℝ × ℝ, ENNReal.ofReal (max p.1 0) * g (Real.sqrt (p.1 ^ 2 + p.2 ^ 2))
      = ENNReal.ofReal 2 *
          ∫⁻ r in Ioi (0:ℝ), ENNReal.ofReal r * ENNReal.ofReal r * g r := by
  rw [← lintegral_comp_polarCoord_symm]
  have key : ∀ p ∈ polarCoord.target,
      ENNReal.ofReal p.1 *
        (ENNReal.ofReal (max (polarCoord.symm p).1 0) *
          g (Real.sqrt ((polarCoord.symm p).1 ^ 2 + (polarCoord.symm p).2 ^ 2)))
      = (fun r => ENNReal.ofReal r * ENNReal.ofReal r * g r) p.1 *
          (fun θ => ENNReal.ofReal (max (Real.cos θ) 0)) p.2 := by
    rintro ⟨r, θ⟩ ⟨hr, hθ⟩
    simp only [mem_Ioi] at hr
    have hsq : (r * Real.cos θ) ^ 2 + (r * Real.sin θ) ^ 2 = r ^ 2 := by
      calc (r * Real.cos θ) ^ 2 + (r * Real.sin θ) ^ 2
          = r ^ 2 * (Real.sin θ ^ 2 + Real.cos θ ^ 2) := by ring
        _ = r ^ 2 := by rw [Real.sin_sq_add_cos_sq, mul_one]
    simp only [polarCoord_symm_apply, hsq, Real.sqrt_sq hr.le]
    rw [show r * Real.cos θ ⊔ 0 = r * (Real.cos θ ⊔ 0) by
      rw [mul_max_of_nonneg _ _ hr.le, mul_zero]]
    rw [ENNReal.ofReal_mul hr.le]
    ring
  rw [setLIntegral_congr_fun polarCoord.open_target.measurableSet
    (ae_of_all _ key)]
  rw [lintegral_target_prod
    (fun r => ENNReal.ofReal r * ENNReal.ofReal r * g r)
    (fun θ => ENNReal.ofReal (max (Real.cos θ) 0))
    (((ENNReal.measurable_ofReal.mul ENNReal.measurable_ofReal).mul hg).aemeasurable)
    ((ENNReal.measurable_ofReal.comp
      (Real.continuous_cos.max continuous_const).measurable).aemeasurable)]
  rw [setLIntegral_max_cos, mul_comm]

lemma arctan_lt_self_of_pos {x : ℝ} (hx : 0 < x) : Real.arctan x < x := by
  have h0 : 0 < Real.arctan x := by
    have h := Real.arctan_strictMono hx
    rwa [Real.arctan_zero] at h
  have h2 := Real.lt_tan h0 (Real.arctan_lt_pi_div_two x)
  rwa [Real.tan_arctan] at h2

/-- C4 amended: in the small-aperture limit the thin-aperture approximation
is a property of the column density, not of total_number: for aperture
radius rho at most 1e-5 times the lengthscale, twice the single-generation
column density at rho is within one percent of the ideal value Q/v/(2 rho).
-/
theorem column_density_small_aperture (Q v L rho : ℝ) (hQ : 0 ≤ Q)
    (hv : 0 < v) (hL : 0 < L) (hrho : 0 < rho) (hsmall : rho ≤ 1e-5 * L) :
    |2 * (Haser.mk Q v L none).column_density rho - Q / v / (2 * rho)|
      ≤ 0.01 * (Q / v / (2 * rho)) := by
  have hIeq : Q / v / (2 * rho) = Q / (2 * v * rho) := by
    rw [div_div]
    ring_nf
  have hupper : 2 * (Haser.mk Q v L none).column_density rho
      ≤ Q / (2 * v * rho) := by
    have h := column_density_single_le Q v L hQ hv.le hL.le hrho
    have heq : 2 * (Q / (4 * v * rho)) = Q / (2 * v * rho) := by
      field_simp
      ring
    linarith
  have hZ : (0:ℝ) < 400 * rho := by linarith
  have hlow0 := column_density_single_lower Q v L hQ hv.le hL hrho hZ
  have harg : (400 * rho) / rho = (400:ℝ) := by field_simp
  rw [harg] at hlow0
  have hπ : (3.141592 : ℝ) < π := Real.pi_gt_d6
  have hE : (0.99599 : ℝ) ≤ Real.exp (-((rho + 400 * rho) / L)) := by
    have h1 : (rho + 400 * rho) / L ≤ 0.00401 := by
      rw [div_le_iff₀ hL]
      nlinarith
    have h2 := Real.add_one_le_exp (-((rho + 400 * rho) / L))
    linarith
  have hA : π / 2 - 0.0025 ≤ Real.arctan 400 := by
    have h1 : Real.arctan ((400:ℝ))⁻¹ < ((400:ℝ))⁻¹ :=
      arctan_lt_self_of_pos (by norm_num)
    have h2 : Real.arctan (((400:ℝ))⁻¹) = π / 2 - Real.arctan 400 :=
      Real.arctan_inv_of_pos (by norm_num)
    rw [h2] at h1
    have h3 : ((400:ℝ))⁻¹ = 0.0025 := by norm_num
    linarith [h3 ▸ h1]
  have hEA : (0.99599 : ℝ) * (π / 2 - 0.0025)
      ≤ Real.exp (-((rho + 400 * rho) / L)) * Real.arctan 400 :=
    mul_le_mul hE hA (by linarith) (Real.exp_pos _).le
  have h2EA : 0.99 * π ≤ 2 * (Real.exp (-((rho + 400 * rho) / L))
      * Real.arctan 400) := by nlinarith
  have hlower : 0.99 * (Q / (2 * v * rho))
      ≤ 2 * (Haser.mk Q v L none).column_density rho := by
    have hre : 2 * (Q / (4 * π * v) * Real.exp (-((rho + 400 * rho) / L))
        * (2 / rho * Real.arctan 400))
        = Q * (Real.exp (-((rho + 400 * rho) / L)) * Real.arctan 400)
            / (π * v * rho) := by
      field_simp
      ring
    have hcross : 0.99 * (Q / (2 * v * rho))
        ≤ Q * (Real.exp (-((rho + 400 * rho) / L)) * Real.arctan 400)
            / (π * v * rho) := by
      rw [mul_div_assoc' (0.99:ℝ) Q (2 * v * rho),
        div_le_div_iff (by positivity) (by positivity)]
      nlinarith [mul_nonneg (mul_nonneg hQ hv.le) hrho.le,
        mul_nonneg (mul_nonneg (mul_nonneg hQ hv.le) hrho.le)
          (by linarith :
            (0:ℝ) ≤ 2 * (Real.exp (-((rho + 400 * rho) / L))
              * Real.arctan 400) - 0.99 * π)]
    have h2low : 2 * (Q / (4 * π * v) * Real.exp (-((rho + 400 * rho) / L))
        * (2 / rho * Real.arctan 400))
        ≤ 2 * (Haser.mk Q v L none).column_density rho := by linarith
    rw [hre] at h2low
    linarith [hcross, h2low]
  rw [hIeq, abs_le]
  constructor <;> linarith

/-- Witness for the amended C4 at Q = 1e28, v = 1, lengthscale 1e7 and
aperture radius 10. -/
theorem column_density_small_aperture_witness :
    |2 * (Haser.mk 1e28 1 1e7 none).column_density 10 - 1e28 / 1 / (2 * 10)|
      ≤ 0.01 * (1e28 / 1 / (2 * 10)) :=
  column_density_small_aperture 1e28 1 1e7 10 (by norm_num) (by norm_num)
    (by norm_num) (by norm_num) (by norm_num)

lemma circularTotal_test_lower :
    (3.9e28 : ℝ) ≤ circularTotal (Haser.mk 1e28 1 1e4 none) 10 := by
  have hCDmeas : Measurable (Haser.mk 1e28 1 1e4 none).column_density :=
    (stronglyMeasurable_column_density _).measurable
  have hCDnn : ∀ u : ℝ, 0 ≤ (Haser.mk 1e28 1 1e4 none).column_density u :=
    fun u => column_density_nonneg _ (by norm_num) (by norm_num) (by norm_num)
      (by simp) u
  have hCDle : ∀ u : ℝ, 0 < u →
      (Haser.mk 1e28 1 1e4 none).column_density u ≤ 1e28 / (4 * 1 * u) :=
    fun u hu => column_density_single_le 1e28 1 1e4 (by norm_num) (by norm_num)
      (by norm_num) hu
  have hint : IntegrableOn
      (fun u : ℝ => u * (Haser.mk 1e28 1 1e4 none).column_density u)
      (Ioc (0:ℝ) 10) := by
    have hgint : IntegrableOn (fun _ : ℝ => (2.5e27 : ℝ)) (Ioc (0:ℝ) 10) := by
      apply integrableOn_const.mpr
      right
      rw [Real.volume_Ioc]
      exact ENNReal.ofReal_lt_top
    apply Integrable.mono' hgint
    · exact (measurable_id.mul hCDmeas).aestronglyMeasurable
    · apply (ae_restrict_iff' measurableSet_Ioc).mpr
      apply ae_of_all
      intro u hu
      rw [Real.norm_eq_abs, abs_of_nonneg (mul_nonneg hu.1.le (hCDnn u))]
      have h1 : u * (Haser.mk 1e28 1 1e4 none).column_density u
          ≤ u * (1e28 / (4 * 1 * u)) :=
        mul_le_mul_of_nonneg_left (hCDle u hu.1) hu.1.le
      have h2 : u * ((1e28:ℝ) / (4 * 1 * u)) = 2.5e27 := by
        field_simp [hu.1.ne']
        ring
      linarith
  have hii : IntervalIntegrable
      (fun u : ℝ => u * (Haser.mk 1e28 1 1e4 none).column_density u)
      volume 0 10 :=
    (intervalIntegrable_iff_integrableOn_Ioc_of_le (by norm_num)).mpr hint
  have h05 : IntervalIntegrable
      (fun u : ℝ => u * (Haser.mk 1e28 1 1e4 none).column_density u)
      volume 0 5 := by
    apply hii.mono_set
    rw [uIcc_of_le (by norm_num : (0:ℝ) ≤ 5), uIcc_of_le (by norm_num : (0:ℝ) ≤ 10)]
    exact Icc_subset_Icc le_rfl (by norm_num)
  have h510 : IntervalIntegrable
      (fun u : ℝ => u * (Haser.mk 1e28 1 1e4 none).column_density u)
      volume 5 10 := by
    apply hii.mono_set
    rw [uIcc_of_le (by norm_num : (5:ℝ) ≤ 10), uIcc_of_le (by norm_num : (0:ℝ) ≤ 10)]
    exact Icc_subset_Icc (by norm_num) le_rfl
  have hsplit : ∫ u in (0:ℝ)..10,
        u * (Haser.mk 1e28 1 1e4 none).column_density u
      = (∫ u in (0:ℝ)..5, u * (Haser.mk 1e28 1 1e4 none).column_density u)
        + ∫ u in (5:ℝ)..10, u * (Haser.mk 1e28 1 1e4 none).column_density u :=
    (intervalIntegral.integral_add_adjacent_intervals h05 h510).symm
  have hpos05 : 0 ≤ ∫ u in (0:ℝ)..5,
      u * (Haser.mk 1e28 1 1e4 none).column_density u := by
    apply intervalIntegral.integral_nonneg (by norm_num)
    intro u hu
    exact mul_nonneg hu.1 (hCDnn u)
  have hπ : (3.141592 : ℝ) < π := Real.pi_gt_d6
  have hc0 : ∀ u ∈ Icc (5:ℝ) 10,
      2 * (1e28 / (4 * π * 1)) * Real.exp (-(1/500 : ℝ)) * (π / 4)
        ≤ u * (Haser.mk 1e28 1 1e4 none).column_density u := by
    intro u hu
    have hu0 : (0:ℝ) < u := by linarith [hu.1]
    have hlow := column_density_single_lower 1e28 1 1e4 (by norm_num)
      (by norm_num) (by norm_num) hu0 (by norm_num : (0:ℝ) < 10)
    have hstep : u * (1e28 / (4 * π * 1) * Real.exp (-((u + 10) / 1e4))
        * (2 / u * Real.arctan (10 / u)))
        = 2 * (1e28 / (4 * π * 1)) * Real.exp (-((u + 10) / 1e4))
          * Real.arctan (10 / u) := by
      field_simp
      ring
    have hmul : u * (1e28 / (4 * π * 1) * Real.exp (-((u + 10) / 1e4))
        * (2 / u * Real.arctan (10 / u)))
        ≤ u * (Haser.mk 1e28 1 1e4 none).column_density u :=
      mul_le_mul_of_nonneg_left hlow hu0.le
    have hEb : Real.exp (-(1/500 : ℝ)) ≤ Real.exp (-((u + 10) / 1e4)) := by
      apply Real.exp_le_exp.mpr
      have : (u + 10) / 1e4 ≤ 1/500 := by
        rw [div_le_iff₀ (by norm_num : (0:ℝ) < 1e4)]
        linarith [hu.2]
      linarith
    have hAb : π / 4 ≤ Real.arctan (10 / u) := by
      rw [← Real.arctan_one]
      apply Real.arctan_strictMono.monotone
      rw [le_div_iff₀ hu0]
      linarith [hu.2]
    have hfin : 2 * (1e28 / (4 * π * 1)) * Real.exp (-(1/500 : ℝ)) * (π / 4)
        ≤ 2 * (1e28 / (4 * π * 1)) * Real.exp (-((u + 10) / 1e4))
          * Real.arctan (10 / u) := by
      have hC : (0:ℝ) ≤ 2 * (1e28 / (4 * π * 1)) := by positivity
      apply mul_le_mul (mul_le_mul_of_nonneg_left hEb hC) hAb (by positivity)
        (by positivity)
    linarith [hstep ▸ hmul]
  have hmono510 : (5:ℝ) * (2 * (1e28 / (4 * π * 1)) * Real.exp (-(1/500 : ℝ))
      * (π / 4))
      ≤ ∫ u in (5:ℝ)..10, u * (Haser.mk 1e28 1 1e4 none).column_density u := by
    have hconst := intervalIntegral.integral_const
      (a := (5:ℝ)) (b := (10:ℝ))
      (c := 2 * (1e28 / (4 * π * 1)) * Real.exp (-(1/500 : ℝ)) * (π / 4))
    have hmm := intervalIntegral.integral_mono_on (by norm_num : (5:ℝ) ≤ 10)
      intervalIntegrable_const h510 hc0
    rw [hconst, smul_eq_mul] at hmm
    linarith [hmm]
  have hE : (0.998 : ℝ) ≤ Real.exp (-(1/500 : ℝ)) := by
    have := Real.add_one_le_exp (-(1/500 : ℝ))
    linarith
  have hval : 5 * (2 * (1e28 / (4 * π * 1)) * Real.exp (-(1/500 : ℝ)) * (π / 4))
      = 6.25e27 * Real.exp (-(1/500 : ℝ)) := by
    field_simp
    ring
  have hI510 : (6.2375e27 : ℝ)
      ≤ ∫ u in (5:ℝ)..10, u * (Haser.mk 1e28 1 1e4 none).column_density u := by
    have ha : (6.2375e27 : ℝ) ≤ 6.25e27 * Real.exp (-(1/500 : ℝ)) := by
      nlinarith [hE]
    rw [hval] at hmono510
    linarith
  unfold circularTotal
  rw [hsplit]
  have hpiI : 2 * 3.141592 * 6.2375e27
      ≤ 2 * π * (∫ u in (5:ℝ)..10,
          u * (Haser.mk 1e28 1 1e4 none).column_density u) := by
    nlinarith [hπ, hI510]
  have hmul : 2 * π * ((∫ u in (0:ℝ)..5,
        u * (Haser.mk 1e28 1 1e4 none).column_density u)
      + ∫ u in (5:ℝ)..10, u * (Haser.mk 1e28 1 1e4 none).column_density u)
      ≥ 2 * π * (∫ u in (5:ℝ)..10,
          u * (Haser.mk 1e28 1 1e4 none).column_density u) := by
    nlinarith [hpos05, Real.pi_pos]
  nlinarith [hpiI, hmul]

/-- C4 counterexample: for Q = 1e28 per second, v = 1 km/s, lengthscale
1e4 km and radius 10 km (the configuration of the source test), twice the
circular total_number is not within one percent of Q/v/(2 rho); the claim
confuses total_number with column_density. -/
theorem total_number_small_aperture_counterexample :
    (Haser.mk 1e28 1 1e4 none).total_number (.ap (.Circular 10))
      = .ok (circularTotal (Haser.mk 1e28 1 1e4 none) 10) ∧
    ¬ |2 * circularTotal (Haser.mk 1e28 1 1e4 none) 10 - 1e28 / 1 / (2 * 10)|
        ≤ 0.01 * (1e28 / 1 / (2 * 10)) := by
  refine ⟨rfl, ?_⟩
  intro hcl
  have h2 := (abs_le.mp hcl).2
  have hN := circularTotal_test_lower
  have : 2 * circularTotal (Haser.mk 1e28 1 1e4 none) 10
      - 1e28 / 1 / (2 * 10) ≥ 7e28 := by linarith
  have hsmall : (0.01 : ℝ) * (1e28 / 1 / (2 * 10)) = 5e24 := by norm_num
  linarith

lemma measurable_sqrt_sumsq :
    Measurable fun p : ℝ × ℝ => Real.sqrt (p.1 ^ 2 + p.2 ^ 2) :=
  (Real.continuous_sqrt.comp (((continuous_pow 2).comp continuous_fst).add
    ((continuous_pow 2).comp continuous_snd))).measurable

lemma circularTotal_eq_disk_integral (m : Haser) {rho : ℝ} (hQ : 0 ≤ m.Q)
    (hv : 0 ≤ m.v) (hp : 0 ≤ m.parent) (hd : ∀ ld ∈ m.daughter, 0 ≤ ld)
    (hrho : 0 ≤ rho) :
    (∫ p in {q : ℝ × ℝ | q.1 ^ 2 + q.2 ^ 2 < rho ^ 2},
        m.column_density (Real.sqrt (p.1 ^ 2 + p.2 ^ 2)))
      = circularTotal m rho := by
  have hCDm : Measurable m.column_density :=
    (stronglyMeasurable_column_density m).measurable
  have hnn : ∀ u : ℝ, 0 ≤ m.column_density u :=
    column_density_nonneg m hQ hv hp hd
  rw [integral_eq_lintegral_of_nonneg_ae (ae_of_all _ fun p => hnn _)
    ((hCDm.comp measurable_sqrt_sumsq).aestronglyMeasurable)]
  rw [show (∫⁻ p in {q : ℝ × ℝ | q.1 ^ 2 + q.2 ^ 2 < rho ^ 2},
      ENNReal.ofReal (m.column_density (Real.sqrt (p.1 ^ 2 + p.2 ^ 2))))
      = ENNReal.ofReal (2 * π) * ∫⁻ r in Ioo 0 rho,
          ENNReal.ofReal r * ENNReal.ofReal (m.column_density r) from
    lintegral_disk_radial (fun r => ENNReal.ofReal (m.column_density r))
      (ENNReal.measurable_ofReal.comp hCDm) hrho]
  unfold circularTotal
  rw [intervalIntegral.integral_of_le hrho]
  rw [integral_eq_lintegral_of_nonneg_ae
    ((ae_restrict_iff' measurableSet_Ioc).mpr
      (ae_of_all _ fun s hs => mul_nonneg hs.1.le (hnn s)))
    ((measurable_id.mul hCDm).aestronglyMeasurable)]
  have hIoc : ∫⁻ s in Ioc (0:ℝ) rho, ENNReal.ofReal (s * m.column_density s)
      = ∫⁻ r in Ioo (0:ℝ) rho,
          ENNReal.ofReal r * ENNReal.ofReal (m.column_density r) := by
    rw [← setLIntegral_congr Ioo_ae_eq_Ioc]
    apply setLIntegral_congr_fun measurableSet_Ioo
    apply ae_of_all
    intro s hs
    rw [ENNReal.ofReal_mul hs.1.le]
  rw [hIoc, ENNReal.toReal_mul, ENNReal.toReal_ofReal (by positivity)]

/-- C2: for every valid model (with or without a daughter lengthscale) and
every circular aperture, the total_number of the analytic circular path and
the numerically integrated column density over the same circle (the
internal diagnostic entry point) agree to within 1e-6 relative error; in
the real-valued model they are equal exactly. -/
theorem total_number_matches_integrated_column_density (m : Haser) (rho : ℝ)
    (hQ : 0 ≤ m.Q) (hv : 0 ≤ m.v) (hp : 0 ≤ m.parent)
    (hd : ∀ ld ∈ m.daughter, 0 ≤ ld) (hrho : 0 ≤ rho) :
    ∀ N I : ℝ, m.total_number (.ap (.Circular rho)) = .ok N →
      m.integrate_column_density (.Circular rho) = some I →
      |N - I| ≤ 1e-6 * |I| := by
  intro N I hN hI
  have hN' : N = circularTotal m rho := by
    simpa [Haser.total_number, Haser.total_number_ap] using hN.symm
  have hI' : I = ∫ p in {q : ℝ × ℝ | q.1 ^ 2 + q.2 ^ 2 < rho ^ 2},
      m.column_density (Real.sqrt (p.1 ^ 2 + p.2 ^ 2)) := by
    simpa [Haser.integrate_column_density] using hI.symm
  have heq : N = I := by
    rw [hN', hI', circularTotal_eq_disk_integral m hQ hv hp hd hrho]
  rw [heq, sub_self, abs_zero]
  positivity

/-- Witness for C2: the zero-daughter and one-daughter configurations of the
source tests (Q = 5.8e23, v = 1, parent 1.4e4, daughter 1.7e5, circular
radius 3300), with the two entry-point values made explicit. -/
theorem total_number_matches_integrated_column_density_witness :
    |circularTotal (Haser.mk 5.8e23 1 1.4e4 none) 3300
      - ∫ p in {q : ℝ × ℝ | q.1 ^ 2 + q.2 ^ 2 < (3300:ℝ) ^ 2},
          (Haser.mk 5.8e23 1 1.4e4 none).column_density
            (Real.sqrt (p.1 ^ 2 + p.2 ^ 2))|
      ≤ 1e-6 * |∫ p in {q : ℝ × ℝ | q.1 ^ 2 + q.2 ^ 2 < (3300:ℝ) ^ 2},
          (Haser.mk 5.8e23 1 1.4e4 none).column_density
            (Real.sqrt (p.1 ^ 2 + p.2 ^ 2))| ∧
    |circularTotal (Haser.mk 5.8e23 1 1.4e4 (some 1.7e5)) 3300
      - ∫ p in {q : ℝ × ℝ | q.1 ^ 2 + q.2 ^ 2 < (3300:ℝ) ^ 2},
          (Haser.mk 5.8e23 1 1.4e4 (some 1.7e5)).column_density
            (Real.sqrt (p.1 ^ 2 + p.2 ^ 2))|
      ≤ 1e-6 * |∫ p in {q : ℝ × ℝ | q.1 ^ 2 + q.2 ^ 2 < (3300:ℝ) ^ 2},
          (Haser.mk 5.8e23 1 1.4e4 (some 1.7e5)).column_density
            (Real.sqrt (p.1 ^ 2 + p.2 ^ 2))| :=
  ⟨total_number_matches_integrated_column_density
      (Haser.mk 5.8e23 1 1.4e4 none) 3300 (by norm_num) (by norm_num)
      (by norm_num) (by simp) (by norm_num) _ _ rfl rfl,
   total_number_matches_integrated_column_density
      (Haser.mk 5.8e23 1 1.4e4 (some 1.7e5)) 3300 (by norm_num) (by norm_num)
      (by norm_num)
      (by
        intro l hl
        have h : (1.7e5:ℝ) = l := by simpa using hl
        rw [← h]
        norm_num)
      (by norm_num) _ _ rfl rfl⟩

lemma integrableOn_exp_neg_div {L : ℝ} (hL : 0 < L) :
    IntegrableOn (fun r : ℝ => Real.exp (-(r / L))) (Ioi 0) := by
  have hfun : (fun r : ℝ => Real.exp (-(r / L)))
      = fun r : ℝ => Real.exp (-(1 / L) * r) := by
    funext r
    congr 1
    ring
  rw [hfun]
  exact exp_neg_integrableOn_Ioi 0 (by positivity)

lemma integral_exp_neg_div {L : ℝ} (hL : 0 < L) :
    ∫ r in Ioi (0:ℝ), Real.exp (-(r / L)) = L := by
  have h1 : ∫ x : ℝ, (Ioi (0:ℝ)).indicator (fun y => Real.exp (-y)) (x / L)
      = |L| • ∫ y : ℝ, (Ioi (0:ℝ)).indicator (fun y => Real.exp (-y)) y :=
    Measure.integral_comp_div _ L
  have h2 : (fun x : ℝ =>
      (Ioi (0:ℝ)).indicator (fun y => Real.exp (-y)) (x / L))
      = (Ioi (0:ℝ)).indicator (fun x => Real.exp (-(x / L))) := by
    funext x
    by_cases hx : 0 < x
    · rw [Set.indicator_of_mem (mem_Ioi.mpr (by positivity : (0:ℝ) < x / L)),
        Set.indicator_of_mem (mem_Ioi.mpr hx)]
    · rw [Set.indicator_of_not_mem, Set.indicator_of_not_mem]
      · exact fun hc => hx (mem_Ioi.mp hc)
      · intro hc
        apply hx
        have h4 : (0:ℝ) < x / L := mem_Ioi.mp hc
        have h5 : x / L * L = x := div_mul_cancel₀ x hL.ne'
        have h6 := mul_pos h4 hL
        rwa [h5] at h6
  rw [h2, integral_indicator measurableSet_Ioi, integral_indicator measurableSet_Ioi]
    at h1
  rw [h1, integral_exp_neg_Ioi_zero, abs_of_pos hL, smul_eq_mul, mul_one]

lemma lintegral_radial_total_single (Q v L : ℝ) (hQ : 0 ≤ Q) (hv : 0 < v)
    (hL : 0 < L) :
    ∫⁻ s in Ioi (0:ℝ),
        ENNReal.ofReal (s * (Haser.mk Q v L none).column_density s)
      = ENNReal.ofReal (Q * L / (2 * π * v)) := by
  have hnm : Measurable (Haser.mk Q v L none).volume_density :=
    measurable_volume_density _
  have hnnr : ∀ r : ℝ, 0 ≤ r → 0 ≤ (Haser.mk Q v L none).volume_density r :=
    fun r hr => volume_density_nonneg _ hQ hv.le hL.le (by simp) hr
  have hG : Measurable fun p : ℝ × ℝ => ENNReal.ofReal p.1 *
      ENNReal.ofReal ((Haser.mk Q v L none).volume_density
        (Real.sqrt (p.1 ^ 2 + p.2 ^ 2))) :=
    (ENNReal.measurable_ofReal.comp measurable_fst).mul
      (ENNReal.measurable_ofReal.comp (hnm.comp measurable_sqrt_sumsq))
  have hAB : ∫⁻ s in Ioi (0:ℝ),
      ENNReal.ofReal (s * (Haser.mk Q v L none).column_density s)
      = ∫⁻ s in Ioi (0:ℝ), ∫⁻ z : ℝ, ENNReal.ofReal s *
          ENNReal.ofReal ((Haser.mk Q v L none).volume_density
            (Real.sqrt (s ^ 2 + z ^ 2))) := by
    apply setLIntegral_congr_fun measurableSet_Ioi
    apply ae_of_all
    intro s hs
    have hs0 : (0:ℝ) < s := hs
    rw [ENNReal.ofReal_mul hs0.le]
    simp only [Haser.column_density]
    rw [ofReal_integral_eq_lintegral_ofReal
      (integrable_radial_single Q v L hQ hv.le hL.le hs0.ne')
      (ae_of_all _ fun z => hnnr _ (Real.sqrt_nonneg _))]
    have hmz : Measurable fun z : ℝ =>
        ENNReal.ofReal ((Haser.mk Q v L none).volume_density
          (Real.sqrt (s ^ 2 + z ^ 2))) :=
      ENNReal.measurable_ofReal.comp (hnm.comp ((Real.continuous_sqrt.comp
        (continuous_const.add (continuous_pow 2))).measurable))
    rw [← lintegral_const_mul _ hmz]
  have hprodmeas : (volume.restrict (Ioi (0:ℝ))).prod (volume : Measure ℝ)
      = ((volume : Measure (ℝ × ℝ))).restrict (Ioi 0 ×ˢ univ) := by
    calc (volume.restrict (Ioi (0:ℝ))).prod (volume : Measure ℝ)
        = (volume.restrict (Ioi (0:ℝ))).prod
            ((volume : Measure ℝ).restrict univ) := by
          rw [Measure.restrict_univ]
      _ = ((volume : Measure ℝ).prod (volume : Measure ℝ)).restrict
            (Ioi 0 ×ˢ univ) := Measure.prod_restrict _ _
      _ = ((volume : Measure (ℝ × ℝ))).restrict (Ioi 0 ×ˢ univ) := by
          rw [← Measure.volume_eq_prod]
  have hC : ∫⁻ s in Ioi (0:ℝ), ∫⁻ z : ℝ, ENNReal.ofReal s *
      ENNReal.ofReal ((Haser.mk Q v L none).volume_density
        (Real.sqrt (s ^ 2 + z ^ 2)))
      = ∫⁻ p : ℝ × ℝ, ENNReal.ofReal (max p.1 0) *
          ENNReal.ofReal ((Haser.mk Q v L none).volume_density
            (Real.sqrt (p.1 ^ 2 + p.2 ^ 2))) := by
    rw [lintegral_lintegral (hG.aemeasurable), hprodmeas,
      ← lintegral_indicator (measurableSet_Ioi.prod MeasurableSet.univ)]
    apply lintegral_congr
    intro p
    by_cases hp : 0 < p.1
    · rw [Set.indicator_of_mem
        (show p ∈ Ioi (0:ℝ) ×ˢ (univ : Set ℝ) from ⟨hp, mem_univ _⟩),
        max_eq_left hp.le]
    · rw [Set.indicator_of_not_mem (fun hc => hp hc.1),
        max_eq_right (not_lt.mp hp), ENNReal.ofReal_zero, zero_mul]
  have hD : ∫⁻ p : ℝ × ℝ, ENNReal.ofReal (max p.1 0) *
      ENNReal.ofReal ((Haser.mk Q v L none).volume_density
        (Real.sqrt (p.1 ^ 2 + p.2 ^ 2)))
      = ENNReal.ofReal 2 * ∫⁻ r in Ioi (0:ℝ),
          ENNReal.ofReal r * ENNReal.ofReal r *
            ENNReal.ofReal ((Haser.mk Q v L none).volume_density r) :=
    lintegral_halfplane_radial
      (fun r => ENNReal.ofReal ((Haser.mk Q v L none).volume_density r))
      (ENNReal.measurable_ofReal.comp hnm)
  have hE : ∫⁻ r in Ioi (0:ℝ), ENNReal.ofReal r * ENNReal.ofReal r *
      ENNReal.ofReal ((Haser.mk Q v L none).volume_density r)
      = ENNReal.ofReal (Q / (4 * π * v)) * ∫⁻ r in Ioi (0:ℝ),
          ENNReal.ofReal (Real.exp (-(r / L))) := by
    have hmexp : Measurable fun r : ℝ =>
        ENNReal.ofReal (Real.exp (-(r / L))) :=
      ENNReal.measurable_ofReal.comp
        (Real.continuous_exp.comp ((continuous_id.div_const L).neg)).measurable
    rw [← lintegral_const_mul _ hmexp]
    apply setLIntegral_congr_fun measurableSet_Ioi
    apply ae_of_all
    intro r hr
    have hr0 : (0:ℝ) < r := hr
    rw [← ENNReal.ofReal_mul hr0.le, ← ENNReal.ofReal_mul (by positivity),
      ← ENNReal.ofReal_mul (by positivity)]
    congr 1
    rw [volume_density_single_eq, expTerm, if_neg hL.ne']
    field_simp
    ring
  have hF : ∫⁻ r in Ioi (0:ℝ), ENNReal.ofReal (Real.exp (-(r / L)))
      = ENNReal.ofReal L := by
    rw [← ofReal_integral_eq_lintegral_ofReal (integrableOn_exp_neg_div hL)
      (ae_of_all _ fun r => (Real.exp_pos _).le)]
    rw [integral_exp_neg_div hL]
  rw [hAB, hC, hD, hE, hF, ← ENNReal.ofReal_mul (by positivity),
    ← ENNReal.ofReal_mul (by norm_num)]
  congr 1
  field_simp
  ring

/-- C3: for the single-generation model, the circular total_number tends to
the total coma population Q lp / v as the aperture radius grows beyond all
bounds. -/
theorem total_number_large_aperture (Q v L : ℝ) (hQ : 0 ≤ Q) (hv : 0 < v)
    (hL : 0 < L) :
    (∀ rho : ℝ, (Haser.mk Q v L none).total_number (.ap (.Circular rho))
        = .ok (circularTotal (Haser.mk Q v L none) rho)) ∧
    Tendsto (fun rho => circularTotal (Haser.mk Q v L none) rho) atTop
      (𝓝 (Q * L / v)) := by
  refine ⟨fun rho => rfl, ?_⟩
  have hkey := lintegral_radial_total_single Q v L hQ hv hL
  have hCDm : Measurable (Haser.mk Q v L none).column_density :=
    (stronglyMeasurable_column_density _).measurable
  have hmeas : AEStronglyMeasurable
      (fun s : ℝ => s * (Haser.mk Q v L none).column_density s)
      (volume.restrict (Ioi 0)) :=
    (measurable_id.mul hCDm).aestronglyMeasurable
  have hnnae : 0 ≤ᵐ[volume.restrict (Ioi (0:ℝ))]
      fun s => s * (Haser.mk Q v L none).column_density s :=
    (ae_restrict_iff' measurableSet_Ioi).mpr (ae_of_all _ fun s hs =>
      mul_nonneg (le_of_lt hs)
        (column_density_nonneg _ hQ hv.le hL.le (by simp) s))
  have hfin : IntegrableOn
      (fun s : ℝ => s * (Haser.mk Q v L none).column_density s) (Ioi 0) := by
    refine ⟨hmeas, ?_⟩
    rw [hasFiniteIntegral_iff_ofReal hnnae, hkey]
    exact ENNReal.ofReal_lt_top
  have hI : ∫ s in Ioi (0:ℝ), s * (Haser.mk Q v L none).column_density s
      = Q * L / (2 * π * v) := by
    rw [integral_eq_lintegral_of_nonneg_ae hnnae hmeas, hkey,
      ENNReal.toReal_ofReal (by positivity)]
  have htend := MeasureTheory.intervalIntegral_tendsto_integral_Ioi 0 hfin
    tendsto_id
  rw [hI] at htend
  have hmul := htend.const_mul (2 * π)
  have harith : 2 * π * (Q * L / (2 * π * v)) = Q * L / v := by
    field_simp
    ring
  rw [harith] at hmul
  exact hmul

/-- Witness for C3 at Q = 1, v = 1, lengthscale 10. -/
theorem total_number_large_aperture_witness :
    (∀ rho : ℝ, (Haser.mk 1 1 10 none).total_number (.ap (.Circular rho))
        = .ok (circularTotal (Haser.mk 1 1 10 none) rho)) ∧
    Tendsto (fun rho => circularTotal (Haser.mk 1 1 10 none) rho) atTop
      (𝓝 ((1:ℝ) * 10 / 1)) :=
  total_number_large_aperture 1 1 10 (by norm_num) (by norm_num) (by norm_num)

end Sbpy
